import Mathlib

/-!
Verification of the distributed coordination layer
(`apps/api/src/performance/performance.service.ts`).

The Redis-backed service is shallowly embedded: each Redis data structure
relevant to a method becomes an explicit Lean value (the value at the lock
key is an `Option String`, a rate-limit sorted set is a `Finset Nat` of
millisecond timestamps, a queue is a list of scored members, a hash is an
association list), and each service method becomes a pure function from the
store state (plus the current time `now`, standing for `Date.now()`) to the
new store state and the returned value.  Store errors are modelled by an
`avail : Bool` flag on the error-aware variants: when the store is
unavailable every command of the method raises, no mutation lands, and the
method returns the value of its `catch` branch.
-/

/-! ### Association-list helpers (Redis hash `hget`/`hset`, cache keys) -/

/-- Redis `HSET`/plain `SET` on an association list: overwrite the value at
the key if present, otherwise append the new binding. -/
def assocSet {α : Type} : List (String × α) → String → α → List (String × α)
  | [], k, v => [(k, v)]
  | e :: es, k, v => if e.1 = k then (k, v) :: es else e :: assocSet es k v

/-- Redis `HGET`/plain `GET` on an association list. -/
def assocGet {α : Type} : List (String × α) → String → Option α
  | [], _ => none
  | e :: es, k => if e.1 = k then some e.2 else assocGet es k

/-! ### JSON values and the `JSON.stringify` / `JSON.parse` pair

The service serializes cached payloads and job records with
`JSON.stringify` and reads them back with `JSON.parse`.  We embed the JSON
fragment the service round-trips: null, booleans, integer numbers, strings
(with `"` and `\` escaped), arrays and objects.  `JSON.stringify` emits no
whitespace, so the parser does not skip any. -/

inductive Json where
  | null : Json
  | bool (b : Bool) : Json
  | num (n : Int) : Json
  | str (s : String) : Json
  | arr (elems : List Json) : Json
  | obj (fields : List (String × Json)) : Json

/-- The decimal digit characters emitted for 0..9. -/
def digitChar : Nat → Char
  | 0 => '0'
  | 1 => '1'
  | 2 => '2'
  | 3 => '3'
  | 4 => '4'
  | 5 => '5'
  | 6 => '6'
  | 7 => '7'
  | 8 => '8'
  | _ => '9'

/-- Numeric value of a decimal digit character, `none` on any other char. -/
def digitVal (c : Char) : Option Nat :=
  if c = '0' then some 0
  else if c = '1' then some 1
  else if c = '2' then some 2
  else if c = '3' then some 3
  else if c = '4' then some 4
  else if c = '5' then some 5
  else if c = '6' then some 6
  else if c = '7' then some 7
  else if c = '8' then some 8
  else if c = '9' then some 9
  else none

/-- Decimal representation of a natural number, most significant digit
first. -/
def natChars (n : Nat) : List Char :=
  if h : n < 10 then [digitChar n]
  else natChars (n / 10) ++ [digitChar (n % 10)]
termination_by n
decreasing_by exact Nat.div_lt_self (by omega) (by omega)

/-- Decimal representation of an integer (a leading `-` for negatives). -/
def intChars (n : Int) : List Char :=
  if n < 0 then '-' :: natChars n.natAbs else natChars n.toNat

/-- Greedily split a leading run of decimal digits from the input. -/
def takeDigits : List Char → List Nat × List Char
  | [] => ([], [])
  | c :: cs =>
    match digitVal c with
    | some d => let p := takeDigits cs; (d :: p.1, p.2)
    | none => ([], c :: cs)

/-- Value of a most-significant-first digit list. -/
def digitsToNat (ds : List Nat) : Nat := ds.foldl (fun a d => a * 10 + d) 0

/-- JSON string-body escaping: `"` and `\` get a backslash, every other
character is emitted verbatim. -/
def escapeChars : List Char → List Char
  | [] => []
  | c :: cs =>
    if c = '\"' ∨ c = '\\' then '\\' :: c :: escapeChars cs
    else c :: escapeChars cs

/-- Parse a JSON string body up to (and consuming) the closing quote,
undoing `escapeChars`. -/
def parseStrAux : List Char → Option (List Char × List Char)
  | [] => none
  | c :: r =>
    if c = '\\' then
      match r with
      | [] => none
      | d :: r2 => (parseStrAux r2).map (fun p => (d :: p.1, p.2))
    else if c = '\"' then some ([], r)
    else (parseStrAux r).map (fun p => (c :: p.1, p.2))

/-- Match an exact sequence of characters, returning the remainder. -/
def expects : List Char → List Char → Option (List Char)
  | [], cs => some cs
  | _ :: _, [] => none
  | p :: ps, c :: cs => if c = p then expects ps cs else none

mutual

/-- `JSON.stringify` on the embedded JSON fragment. -/
def stringifyJ : Json → List Char
  | Json.null => ['n', 'u', 'l', 'l']
  | Json.bool true => ['t', 'r', 'u', 'e']
  | Json.bool false => ['f', 'a', 'l', 's', 'e']
  | Json.num n => intChars n
  | Json.str s => '\"' :: (escapeChars s.data ++ ['\"'])
  | Json.arr es => '[' :: (stringifyElems es ++ [']'])
  | Json.obj fs => '\x7b' :: (stringifyFields fs ++ ['\x7d'])

/-- Comma-joined serializations of array elements. -/
def stringifyElems : List Json → List Char
  | [] => []
  | [e] => stringifyJ e
  | e :: e2 :: es => stringifyJ e ++ ',' :: stringifyElems (e2 :: es)

/-- Comma-joined `"key":value` serializations of object fields. -/
def stringifyFields : List (String × Json) → List Char
  | [] => []
  | [f] => '\"' :: (escapeChars f.1.data ++ '\"' :: ':' :: stringifyJ f.2)
  | f :: f2 :: fs =>
    ('\"' :: (escapeChars f.1.data ++ '\"' :: ':' :: stringifyJ f.2))
      ++ ',' :: stringifyFields (f2 :: fs)

end

mutual

/-- Fuel-indexed `JSON.parse` of one value; returns the value and the
unconsumed remainder. -/
def parseVal : Nat → List Char → Option (Json × List Char)
  | 0, _ => none
  | Nat.succ fuel, cs =>
    match cs with
    | [] => none
    | c :: r =>
      if c = 'n' then (expects ['u', 'l', 'l'] r).map (fun r2 => (Json.null, r2))
      else if c = 't' then (expects ['r', 'u', 'e'] r).map (fun r2 => (Json.bool true, r2))
      else if c = 'f' then (expects ['a', 'l', 's', 'e'] r).map (fun r2 => (Json.bool false, r2))
      else if c = '\"' then (parseStrAux r).map (fun p => (Json.str (String.mk p.1), p.2))
      else if c = '[' then
        match r with
        | [] => none
        | d :: r2 =>
          if d = ']' then some (Json.arr [], r2)
          else (parseElems fuel (d :: r2)).map (fun p => (Json.arr p.1, p.2))
      else if c = '\x7b' then
        match r with
        | [] => none
        | d :: r2 =>
          if d = '\x7d' then some (Json.obj [], r2)
          else (parseFields fuel (d :: r2)).map (fun p => (Json.obj p.1, p.2))
      else if c = '-' then
        match takeDigits r with
        | ([], _) => none
        | (d :: ds, rest) => some (Json.num (-(digitsToNat (d :: ds) : Int)), rest)
      else
        match takeDigits (c :: r) with
        | ([], _) => none
        | (d :: ds, rest) => some (Json.num ((digitsToNat (d :: ds) : Int)), rest)

/-- Parse one-or-more comma-separated array elements, consuming the
closing `]`. -/
def parseElems : Nat → List Char → Option (List Json × List Char)
  | 0, _ => none
  | Nat.succ fuel, cs =>
    match parseVal fuel cs with
    | none => none
    | some (v, rest) =>
      match rest with
      | [] => none
      | c :: r =>
        if c = ',' then (parseElems fuel r).map (fun p => (v :: p.1, p.2))
        else if c = ']' then some ([v], r)
        else none

/-- Parse one-or-more comma-separated object fields, consuming the
closing brace. -/
def parseFields : Nat → List Char → Option (List (String × Json) × List Char)
  | 0, _ => none
  | Nat.succ fuel, cs =>
    match cs with
    | [] => none
    | q :: r =>
      if q = '\"' then
        match parseStrAux r with
        | none => none
        | some (key, rest1) =>
          match rest1 with
          | [] => none
          | colon :: rest2 =>
            if colon = ':' then
              match parseVal fuel rest2 with
              | none => none
              | some (v, rest3) =>
                match rest3 with
                | [] => none
                | c :: r3 =>
                  if c = ',' then
                    (parseFields fuel r3).map (fun p => ((String.mk key, v) :: p.1, p.2))
                  else if c = '\x7d' then some ([(String.mk key, v)], r3)
                  else none
            else none
      else none

end

/-- True when the input does not begin with a decimal digit, so a greedy
digit run ending right before it is parsed back unchanged. -/
def noDigitStart : List Char → Bool
  | [] => true
  | c :: _ => (digitVal c).isNone

mutual

/-- Fuel needed by `parseVal` to parse a serialized value. -/
def jsize : Json → Nat
  | Json.null => 1
  | Json.bool _ => 1
  | Json.num _ => 1
  | Json.str _ => 1
  | Json.arr es => 1 + lsize es
  | Json.obj fs => 1 + fsize fs

/-- Fuel needed by `parseElems` for a serialized element list. -/
def lsize : List Json → Nat
  | [] => 0
  | e :: es => 1 + jsize e + lsize es

/-- Fuel needed by `parseFields` for a serialized field list. -/
def fsize : List (String × Json) → Nat
  | [] => 0
  | f :: fs => 1 + jsize f.2 + fsize fs

end

/-- `JSON.stringify` producing a `String`. -/
def stringifyJson (v : Json) : String := String.mk (stringifyJ v)

/-- `JSON.parse`: succeeds only when the whole input is one JSON value
(`JSON.parse` throws on trailing garbage, which the caller's `catch`
turns into `none`). -/
def parseJson (s : String) : Option Json :=
  match parseVal (s.data.length + 1) s.data with
  | some (v, []) => some v
  | _ => none

/-! ### Cache (`getCachedData` / `setCachedData` / `invalidateCache`)

A cache key holds the serialized payload together with its absolute expiry
instant (`SETEX key ttl value` with `ttl` in seconds); a key whose expiry
has passed behaves exactly like an absent key. -/

structure CacheEntry where
  value : String
  expiresAt : Nat
deriving DecidableEq, Repr

abbrev CacheState := List (String × CacheEntry)

/-- `getCachedData(key)`: `GET` then `data ? JSON.parse(data) : null`; a
missing or expired key, a falsy (empty) payload, and a payload that fails
to parse (the `catch` branch) all yield `none`. -/
def getCachedData (c : CacheState) (key : String) (now : Nat) : Option Json :=
  match assocGet c key with
  | none => none
  | some e =>
    if e.expiresAt ≤ now then none
    else if e.value = "" then none
    else parseJson e.value

/-- `setCachedData(key, data, ttl)`: `SETEX key ttl JSON.stringify(data)`
(ttl in seconds, `now` in milliseconds). -/
def setCachedData (c : CacheState) (key : String) (v : Json) (ttl : Nat) (now : Nat) : CacheState :=
  assocSet c key { value := stringifyJson v, expiresAt := now + ttl * 1000 }

/-- `invalidateCache(key)`: `DEL key`. -/
def invalidateCache (c : CacheState) (key : String) : CacheState :=
  c.filter (fun e => !(e.1 == key))

/-! ### Rate limiter (`checkRateLimit`)

The sorted set at `ratelimit:action:identifier` is a `Finset Nat` of
millisecond timestamps (the member is `now.toString()` and its score is
`now`, so members and scores coincide and two calls in the same
millisecond collapse to one member, exactly as `ZADD` behaves).  Faithful
to the source, `windowStart` is computed in seconds
(`Math.floor(now / 1000 / windowSeconds) * windowSeconds`) while scores
are milliseconds. -/

structure RLResult where
  allowed : Bool
  remaining : Nat
  resetTime : Nat
deriving DecidableEq, Repr

/-- `checkRateLimit` success path: prune scores in
`[0, windowStart - windowSeconds]`, `ZADD` the current timestamp,
`ZCOUNT` scores in `[windowStart, +inf)`, then decide
`allowed = count <= limit`, `remaining = max(0, limit - count)`,
`resetTime = (windowStart + windowSeconds) * 1000`. -/
def checkRateLimit (s : Finset Nat) (now : Nat) (limit : Nat) (windowSeconds : Nat) :
    Finset Nat × RLResult :=
  let windowStart := now / 1000 / windowSeconds * windowSeconds
  let s1 := s.filter (fun t : Nat => ¬((t : Int) ≤ (windowStart : Int) - (windowSeconds : Int)))
  let s2 := insert now s1
  let count := (s2.filter (fun t : Nat => windowStart ≤ t)).card
  (s2, { allowed := count ≤ limit
       , remaining := limit - count
       , resetTime := (windowStart + windowSeconds) * 1000 })

/-- Iterate `checkRateLimit` over a list of call times, collecting the
per-call results. -/
def runRateLimit (s : Finset Nat) (limit : Nat) (windowSeconds : Nat) :
    List Nat → Finset Nat × List RLResult
  | [] => (s, [])
  | t :: ts =>
    let r := checkRateLimit s t limit windowSeconds
    let rest := runRateLimit r.1 limit windowSeconds ts
    (rest.1, r.2 :: rest.2)

/-! ### Circuit breaker (`checkCircuitBreaker` / `recordCircuitBreakerFailure`)

The three per-service keys `circuit:name:failures`, `circuit:name:state`
and `circuit:name:last_failure` become the three fields of
`CircuitState`; an absent key is `none`. -/

structure CircuitState where
  failures : Option Nat
  state : Option String
  lastFailure : Option Nat
deriving DecidableEq, Repr

/-- `checkCircuitBreaker` success path.  It reads the failures counter
(`parseInt(failureCount || '0')`) but, as in the source, never uses it,
and the `failureThreshold` argument is never read at all. -/
def checkCircuitBreaker (st : CircuitState) (now : Nat)
    (failureThreshold : Nat) (recoveryTimeout : Nat) : CircuitState × Bool :=
  let _failures := st.failures.getD 0
  if st.state = some "open" then
    match st.lastFailure with
    | some t =>
      if recoveryTimeout < now - t then ({ st with state := some "half-open" }, true)
      else (st, false)
    | none => (st, false)
  else if st.state = some "half-open" then
    ({ st with state := some "closed", failures := none }, true)
  else (st, true)

/-- `recordCircuitBreakerFailure` success path: `INCR` the counter, stamp
`last_failure = Date.now()`, and open the circuit when the counter
reaches the hard-coded literal `5` (the source compares `failures >= 5`,
not against any threshold argument). -/
def recordCircuitBreakerFailure (st : CircuitState) (now : Nat) : CircuitState :=
  let f := st.failures.getD 0 + 1
  let st1 : CircuitState := { st with failures := some f, lastFailure := some now }
  if 5 ≤ f then { st1 with state := some "open" } else st1

/-- Iterate `recordCircuitBreakerFailure` over a list of failure times. -/
def recordFailures (st : CircuitState) (ts : List Nat) : CircuitState :=
  ts.foldl recordCircuitBreakerFailure st

/-! ### Distributed lock (`acquireLock` / `releaseLock`)

The lock key's stored value is an `Option String` (the owner token or
absent). -/

/-- Atomic `SET key value NX PX ttl`: succeeds only when the key is
absent. -/
def setNX (st : Option String) (v : String) : Option String × Bool :=
  match st with
  | none => (some v, true)
  | some w => (some w, false)

/-- `acquireLock` retry loop for a fixed generated `lockId`: up to
`retryCount` `SET NX` attempts (sleeping `retryDelay` between them, which
does not affect the store); the first success returns the token, and
exhaustion returns `null`. -/
def acquireLock (st : Option String) (lockId : String) (retryCount : Nat) :
    Option String × Option String :=
  match retryCount with
  | 0 => (st, none)
  | Nat.succ n =>
    let r := setNX st lockId
    if r.2 then (r.1, some lockId) else acquireLock r.1 lockId n

/-- A shared-store trace of `SET NX` attempts: each attempt is tagged with
the caller that issued it (`true` for the first caller, `false` for the
second) and carries that caller's token; the output records, per attempt,
the tag and whether the attempt succeeded.  This models any interleaving
of the attempt sequences of two concurrent `acquireLock` calls. -/
def runSetNXL (st : Option String) : List (Bool × String) → Option String × List (Bool × Bool)
  | [] => (st, [])
  | a :: as =>
    let r := setNX st a.2
    let rest := runSetNXL r.1 as
    (rest.1, (a.1, r.2) :: rest.2)

/-- `releaseLock(key, lockId)`: the atomic Lua script — `GET` the key,
and only when the stored value equals the presented token, `DEL` it and
return 1; the method returns `result === 1`. -/
def releaseLock (st : Option String) (lockId : String) : Option String × Bool :=
  match st with
  | some v => if v = lockId then (none, true) else (some v, false)
  | none => (none, false)

/-! ### Job queue (`enqueueJob` / `dequeueJob` / `completeJob` / `failJob`)

Per queue name there are two structures: the sorted set
`queueName:queue` whose members are the serialized job records scored by
priority, and the hash `queueName:jobs` from job id to the serialized
record.  Since the embedded serialization is injective on job records, the
queue stores `Job` values directly. -/

structure Job where
  id : String
  data : String
  priority : Int
  createdAt : Nat
  status : String
  startedAt : Option Nat := none
  completedAt : Option Nat := none
  failedAt : Option Nat := none
  result : Option String := none
  error : Option String := none
deriving DecidableEq, Repr

/-- The record built by `enqueueJob`:
`{id, data, priority, createdAt: Date.now(), status: 'queued'}` (the id is
generated from the clock and `Math.random()`; it is a parameter here). -/
def mkJob (id : String) (data : String) (priority : Int) (now : Nat) : Job :=
  { id := id, data := data, priority := priority, createdAt := now, status := "queued" }

structure QueueState where
  queue : List (Int × Job)
  jobs : List (String × Job)
deriving DecidableEq, Repr

/-- `ZADD` on the queue index: a member already present gets its score
updated, otherwise the member is added. -/
def zaddQ (q : List (Int × Job)) (score : Int) (j : Job) : List (Int × Job) :=
  if q.any (fun e => e.2 == j) then
    q.map (fun e => if e.2 == j then (score, j) else e)
  else q ++ [(score, j)]

/-- `ZPOPMIN`: remove and return a member with the minimal score (tie
break among equal scores abstracted as first-listed; no claim depends on
the tie order). -/
def popMinQ : List (Int × Job) → Option ((Int × Job) × List (Int × Job))
  | [] => none
  | e :: rest =>
    match popMinQ rest with
    | none => some (e, [])
    | some (m, rest2) => if e.1 ≤ m.1 then some (e, rest) else some (m, e :: rest2)

/-- `enqueueJob` success path: build the queued record, `ZADD` it to the
index scored by priority, `HSET` it into the hash, return the id. -/
def enqueueJob (qs : QueueState) (id : String) (data : String) (priority : Int) (now : Nat) :
    QueueState × String :=
  let job := mkJob id data priority now
  ({ queue := zaddQ qs.queue priority job, jobs := assocSet qs.jobs id job }, id)

/-- `dequeueJob` success path: `ZPOPMIN` the index; on a member, `HSET`
the hash record to the popped record overwritten with
`status: 'processing', startedAt: Date.now()`, and return the popped
record itself (not the overwritten one). -/
def dequeueJob (qs : QueueState) (now : Nat) : QueueState × Option Job :=
  match popMinQ qs.queue with
  | none => (qs, none)
  | some (e, rest) =>
    ({ queue := rest
     , jobs := assocSet qs.jobs e.2.id { e.2 with status := "processing", startedAt := some now } },
     some e.2)

/-- `completeJob` success path: `HGET` the record; when present, `HSET` it
back merged with `status: 'completed', completedAt: Date.now(), result`;
no-op when missing. -/
def completeJob (qs : QueueState) (jobId : String) (result : Option String) (now : Nat) :
    QueueState :=
  match assocGet qs.jobs jobId with
  | none => qs
  | some job =>
    let updated : Job := { job with status := "completed", completedAt := some now, result := result }
    { qs with jobs := assocSet qs.jobs jobId updated }

/-- `failJob` success path: as `completeJob` but merging
`status: 'failed', failedAt: Date.now(), error`. -/
def failJob (qs : QueueState) (jobId : String) (error : String) (now : Nat) : QueueState :=
  match assocGet qs.jobs jobId with
  | none => qs
  | some job =>
    let updated : Job := { job with status := "failed", failedAt := some now, error := some error }
    { qs with jobs := assocSet qs.jobs jobId updated }

/-- One queue operation of a cross-process trace. -/
inductive QOp where
  | enq (id : String) (data : String) (priority : Int) (now : Nat)
  | deq (now : Nat)
  | complete (jobId : String) (result : Option String) (now : Nat)
  | fail (jobId : String) (error : String) (now : Nat)
deriving DecidableEq, Repr

/-- Apply one queue operation; the optional output is the job returned by
`dequeueJob`. -/
def stepQ (qs : QueueState) : QOp → QueueState × Option Job
  | QOp.enq id data priority now => ((enqueueJob qs id data priority now).1, none)
  | QOp.deq now => dequeueJob qs now
  | QOp.complete jobId result now => (completeJob qs jobId result now, none)
  | QOp.fail jobId error now => (failJob qs jobId error now, none)

/-- Run a trace of queue operations, collecting every job returned by a
dequeue. -/
def runQ (qs : QueueState) : List QOp → QueueState × List Job
  | [] => (qs, [])
  | op :: ops =>
    let r := stepQ qs op
    let rest := runQ r.1 ops
    (rest.1, r.2.toList ++ rest.2)

/-- Occurrences of the job record `j` among the members of the queue
index. -/
def memCount (j : Job) (q : List (Int × Job)) : Nat := q.countP (fun e => e.2 == j)

/-- Number of trace operations that enqueue exactly the record `j`. -/
def enqCount (j : Job) (ops : List QOp) : Nat :=
  ops.countP (fun op =>
    match op with
    | QOp.enq id data priority now => mkJob id data priority now == j
    | _ => false)

/-- Occurrences of the job record `j` among the jobs returned by the
dequeues of a trace. -/
def outCount (j : Job) (outs : List Job) : Nat := outs.countP (fun x => x == j)

/-! ### Error-aware variants (store-unavailable behavior)

`avail = true` is the success path above; `avail = false` models a store
connection failure: the first Redis command of the method raises before
any mutation lands, and the method's `catch` block produces the degraded
return value — except `enqueueJob`, whose `catch` re-throws. -/

/-- `checkRateLimit` with the `catch` branch: on store error return
`{allowed: true, remaining: limit, resetTime: 0}`. -/
def checkRateLimitE (avail : Bool) (s : Finset Nat) (now limit windowSeconds : Nat) :
    Finset Nat × RLResult :=
  if avail then checkRateLimit s now limit windowSeconds
  else (s, { allowed := true, remaining := limit, resetTime := 0 })

/-- `checkCircuitBreaker` with the `catch` branch: on store error fail
open (return `true`). -/
def checkCircuitBreakerE (avail : Bool) (st : CircuitState)
    (now failureThreshold recoveryTimeout : Nat) : CircuitState × Bool :=
  if avail then checkCircuitBreaker st now failureThreshold recoveryTimeout
  else (st, true)

/-- `getCachedData` with the `catch` branch: on store error return
`null`. -/
def getCachedDataE (avail : Bool) (c : CacheState) (key : String) (now : Nat) : Option Json :=
  if avail then getCachedData c key now else none

/-- `setCachedData` with the `catch` branch: on store error the write is
swallowed (logged only). -/
def setCachedDataE (avail : Bool) (c : CacheState) (key : String) (v : Json) (ttl now : Nat) :
    CacheState :=
  if avail then setCachedData c key v ttl now else c

/-- `invalidateCache` with the `catch` branch: on store error the delete
is swallowed. -/
def invalidateCacheE (avail : Bool) (c : CacheState) (key : String) : CacheState :=
  if avail then invalidateCache c key else c

/-- `enqueueJob` with its `catch` branch: unlike every other method it
re-throws the store error. -/
def enqueueJobE (avail : Bool) (qs : QueueState) (id : String) (data : String)
    (priority : Int) (now : Nat) : Except String (QueueState × String) :=
  if avail then Except.ok (enqueueJob qs id data priority now)
  else Except.error "store unavailable"

/-! ## Helper lemmas -/

theorem runSetNXL_some_flags (w : String) (attempts : List (Bool × String)) :
    ((runSetNXL (some w) attempts).2.all (fun p => !p.2)) = true := by
  induction attempts generalizing w with
  | nil => rfl
  | cons a as ih => simp [runSetNXL, setNX, ih]

theorem runSetNXL_some_count (w : String) (attempts : List (Bool × String)) :
    ((runSetNXL (some w) attempts).2.countP (fun p => p.2)) = 0 := by
  rw [List.countP_eq_zero]
  intro a ha
  have h := runSetNXL_some_flags w attempts
  rw [List.all_eq_true] at h
  have := h a ha
  simp_all

theorem acquireLock_held (owner lockId : String) (n : Nat) :
    acquireLock (some owner) lockId n = (some owner, none) := by
  induction n with
  | zero => rfl
  | succ n ih => simp [acquireLock, setNX, ih]

theorem runSetNXL_count_le (st : Option String) (attempts : List (Bool × String)) :
    ((runSetNXL st attempts).2.countP (fun p => p.2)) ≤ 1 := by
  cases st with
  | some w => rw [runSetNXL_some_count]; omega
  | none =>
    cases attempts with
    | nil => simp [runSetNXL]
    | cons a as =>
      simp [runSetNXL, setNX, List.countP_cons, runSetNXL_some_count]

theorem flags_false_any (l : List (Bool × Bool)) (h : l.all (fun p => !p.2) = true)
    (f : Bool → Bool) : l.any (fun p => f p.1 && p.2) = false := by
  rw [List.any_eq_false]
  intro a ha
  rw [List.all_eq_true] at h
  have := h a ha
  simp_all

theorem runSetNXL_excl (st : Option String) (attempts : List (Bool × String))
    (hA : (runSetNXL st attempts).2.any (fun p => p.1 && p.2) = true) :
    (runSetNXL st attempts).2.any (fun p => !p.1 && p.2) = false := by
  cases st with
  | some w =>
    have := flags_false_any _ (runSetNXL_some_flags w attempts) (fun b => b)
    simp_all
  | none =>
    cases attempts with
    | nil => simp [runSetNXL] at hA
    | cons a as =>
      have hrest := runSetNXL_some_flags a.2 as
      simp only [runSetNXL, setNX] at hA ⊢
      rw [List.any_cons] at hA ⊢
      have hAtail := flags_false_any _ hrest (fun b => b)
      have hBtail := flags_false_any _ hrest (fun b => !b)
      simp only [hAtail, hBtail, Bool.or_false] at hA ⊢
      simp_all

theorem popMinQ_ne_none (e : Int × Job) (es : List (Int × Job)) :
    popMinQ (e :: es) ≠ none := by
  simp only [popMinQ]
  cases h : popMinQ es with
  | none => simp
  | some p =>
    obtain ⟨m, r⟩ := p
    by_cases hle : e.1 ≤ m.1 <;> simp [hle]

theorem popMinQ_perm (q : List (Int × Job)) (m : Int × Job) (rest : List (Int × Job))
    (h : popMinQ q = some (m, rest)) : q.Perm (m :: rest) := by
  induction q generalizing m rest with
  | nil => simp [popMinQ] at h
  | cons e es ih =>
    simp only [popMinQ] at h
    cases hes : popMinQ es with
    | none =>
      rw [hes] at h
      have hnil : es = [] := by
        cases es with
        | nil => rfl
        | cons f fs => exact absurd hes (popMinQ_ne_none f fs)
      subst hnil
      simp only [Option.some.injEq, Prod.mk.injEq] at h
      obtain ⟨hm, hr⟩ := h
      subst hm
      subst hr
      exact List.Perm.refl _
    | some p =>
      obtain ⟨m', rest2⟩ := p
      rw [hes] at h
      dsimp only at h
      by_cases hle : e.1 ≤ m'.1
      · rw [if_pos hle] at h
        simp only [Option.some.injEq, Prod.mk.injEq] at h
        obtain ⟨hm, hr⟩ := h
        subst hm
        subst hr
        exact List.Perm.refl _
      · rw [if_neg hle] at h
        simp only [Option.some.injEq, Prod.mk.injEq] at h
        obtain ⟨hm, hr⟩ := h
        subst hm
        subst hr
        exact ((ih _ _ hes).cons e).trans (List.Perm.swap _ e rest2)

theorem popMinQ_countP (q : List (Int × Job)) (m : Int × Job) (rest : List (Int × Job))
    (h : popMinQ q = some (m, rest)) (p : Int × Job → Bool) :
    q.countP p = rest.countP p + (if p m then 1 else 0) := by
  rw [(popMinQ_perm q m rest h).countP_eq p, List.countP_cons]

theorem popMinQ_mem (q : List (Int × Job)) (m : Int × Job) (rest : List (Int × Job))
    (h : popMinQ q = some (m, rest)) : m ∈ q :=
  ((popMinQ_perm q m rest h).mem_iff).2 (List.mem_cons_self m rest)

theorem assocGet_assocSet {α : Type} (l : List (String × α)) (k : String) (v : α) :
    assocGet (assocSet l k v) k = some v := by
  induction l with
  | nil => simp [assocSet, assocGet]
  | cons e es ih =>
    by_cases h : e.1 = k
    · simp [assocSet, assocGet, h]
    · simp [assocSet, assocGet, h, ih]

theorem zaddQ_memCount (j : Job) (q : List (Int × Job)) (score : Int) (m : Job) :
    memCount j (zaddQ q score m) ≤ memCount j q + (if m == j then 1 else 0) := by
  unfold zaddQ memCount
  by_cases h : q.any (fun e => e.2 == m)
  · rw [if_pos h, List.countP_map]
    have hfun : ((fun x : Int × Job => x.2 == j) ∘
        fun e : Int × Job => if e.2 == m then (score, m) else e)
          = fun e : Int × Job => e.2 == j := by
      funext e
      by_cases he : (e.2 == m) = true
      · have hem : e.2 = m := by simpa using he
        simp [Function.comp, he, hem]
      · simp [Function.comp, he]
    rw [hfun]
    omega
  · rw [if_neg h, List.countP_append]
    simp [List.countP_cons]

theorem completeJob_queue (qs : QueueState) (jobId : String) (res : Option String) (now : Nat) :
    (completeJob qs jobId res now).queue = qs.queue := by
  unfold completeJob
  cases assocGet qs.jobs jobId <;> rfl

theorem failJob_queue (qs : QueueState) (jobId : String) (err : String) (now : Nat) :
    (failJob qs jobId err now).queue = qs.queue := by
  unfold failJob
  cases assocGet qs.jobs jobId <;> rfl

theorem runQ_outCount_le (j : Job) (ops : List QOp) (qs : QueueState) :
    outCount j (runQ qs ops).2 ≤ memCount j qs.queue + enqCount j ops := by
  induction ops generalizing qs with
  | nil => simp [runQ, outCount, enqCount]
  | cons op ops ih =>
    cases op with
    | enq id data priority now =>
      have hrec := ih ⟨zaddQ qs.queue priority (mkJob id data priority now),
                      assocSet qs.jobs id (mkJob id data priority now)⟩
      have hz := zaddQ_memCount j qs.queue priority (mkJob id data priority now)
      simp only [runQ, stepQ, enqueueJob, Option.toList, List.nil_append,
                 enqCount, List.countP_cons] at *
      omega
    | deq now =>
      simp only [runQ, stepQ, dequeueJob]
      cases hp : popMinQ qs.queue with
      | none =>
        have hrec := ih qs
        simp only [Option.toList, List.nil_append, enqCount, List.countP_cons] at *
        omega
      | some p =>
        obtain ⟨⟨sc, job⟩, rest⟩ := p
        have hcount := popMinQ_countP qs.queue (sc, job) rest hp (fun e => e.2 == j)
        have hrec := ih ⟨rest, assocSet qs.jobs job.id
            { job with status := "processing", startedAt := some now }⟩
        simp only [Option.toList, List.singleton_append, outCount, memCount, enqCount,
                   List.countP_cons] at *
        omega
    | complete jobId res now =>
      have hrec := ih (completeJob qs jobId res now)
      rw [completeJob_queue] at hrec
      simp only [runQ, stepQ, Option.toList, List.nil_append, enqCount,
                 List.countP_cons] at *
      omega
    | fail jobId err now =>
      have hrec := ih (failJob qs jobId err now)
      rw [failJob_queue] at hrec
      simp only [runQ, stepQ, Option.toList, List.nil_append, enqCount,
                 List.countP_cons] at *
      omega

/-! ## Claim theorems -/

/-- Claim C1: when the lock key is already present, every `SET NX` attempt
of `acquireLock`'s retry loop fails, the call returns `null` and the
stored owner token is unchanged; and over any interleaved shared-store
trace of the `SET NX` attempts of two concurrent `acquireLock` calls
(labelled `true`/`false`), at most one attempt in total succeeds, so at
most one of the two calls returns a non-null token — a lock is held by at
most one owner at a time. -/
theorem acquireLock_mutual_exclusion :
    (∀ owner lockId n, acquireLock (some owner) lockId n = (some owner, none)) ∧
    (∀ st attempts, ((runSetNXL st attempts).2.countP (fun p => p.2)) ≤ 1) ∧
    (∀ st attempts, (runSetNXL st attempts).2.any (fun p => p.1 && p.2) = true →
      (runSetNXL st attempts).2.any (fun p => !p.1 && p.2) = false) :=
  ⟨acquireLock_held, runSetNXL_count_le, runSetNXL_excl⟩

/-- Witness for C1 at a concrete trace: the first caller's single attempt
on a free lock succeeds, so the second caller's attempt does not. -/
theorem acquireLock_mutual_exclusion_witness :
    (runSetNXL none [(true, "a"), (false, "b")]).2.any (fun p => !p.1 && p.2) = false :=
  acquireLock_mutual_exclusion.2.2 none [(true, "a"), (false, "b")] (by decide)

/-- Claim C2: `releaseLock(key, token)` deletes the key and returns true
exactly when the stored value equals the token; otherwise it returns
false and leaves the stored value unchanged.  The check-then-delete is a
single Lua script, embedded here as one atomic step on the store. -/
theorem releaseLock_owner_check (st : Option String) (token : String) :
    (releaseLock st token = (none, true) ↔ st = some token) ∧
    (st ≠ some token → releaseLock st token = (st, false)) := by
  constructor
  · constructor
    · intro h
      cases st with
      | none => simp [releaseLock] at h
      | some v =>
        by_cases hv : v = token
        · rw [hv]
        · simp [releaseLock, hv] at h
    · intro h
      rw [h]
      simp [releaseLock]
  · intro h
    cases st with
    | none => rfl
    | some v =>
      have hv : ¬ v = token := fun hh => h (by rw [hh])
      simp [releaseLock, hv]

/-- Witness for C2: releasing with a foreign token returns false and does
not delete the current holder's lock. -/
theorem releaseLock_owner_check_witness :
    releaseLock (some "owner") "stale" = (some "owner", false) :=
  (releaseLock_owner_check (some "owner") "stale").2 (by decide)

/-- Claim C3 counterexample: the claim quantifies over every
`failureThreshold`, but the code opens the circuit only at the hard-coded
count 5.  With `failureThreshold = 1`, after one consecutive
`recordCircuitBreakerFailure` (at time 0) and no recovery time elapsed,
the claim requires `checkCircuitBreaker` to return false, yet the code
returns true (the circuit never opened). -/
theorem checkCircuitBreaker_threshold_counterexample :
    checkCircuitBreaker (recordCircuitBreakerFailure ⟨none, none, none⟩ 0) 0 1 60000
      = ({ failures := some 1, state := none, lastFailure := some 0 }, true) := by
  decide

/-- Claim C3 as amended: with the threshold fixed at the hard-coded 5
(the `failureThreshold` argument is ignored by the code), after 5
consecutive `recordCircuitBreakerFailure` calls the circuit is open;
`checkCircuitBreaker` returns false while at most `recoveryTimeout` has
elapsed since the last recorded failure; once strictly more has elapsed,
one call returns true and moves the state to half-open, and the
subsequent call returns true with the failures counter cleared (closed). -/
theorem circuitBreaker_recovery_cycle (t1 t2 t3 t4 t5 rt now1 now2 now3 : Nat)
    (st5 : CircuitState)
    (hst : st5 = recordFailures ⟨none, none, none⟩ [t1, t2, t3, t4, t5])
    (h1 : now1 - t5 ≤ rt) (h2 : rt < now2 - t5) :
    st5.state = some "open" ∧
    checkCircuitBreaker st5 now1 5 rt = (st5, false) ∧
    checkCircuitBreaker st5 now2 5 rt = ({ st5 with state := some "half-open" }, true) ∧
    checkCircuitBreaker { st5 with state := some "half-open" } now3 5 rt =
      ({ st5 with state := some "closed", failures := none }, true) := by
  have hval : recordFailures ⟨none, none, none⟩ [t1, t2, t3, t4, t5]
      = { failures := some 5, state := some "open", lastFailure := some t5 } := rfl
  rw [hval] at hst
  subst hst
  have hno1 : ¬ rt < now1 - t5 := by omega
  refine ⟨rfl, ?_, ?_, ?_⟩
  · simp [checkCircuitBreaker, hno1]
  · simp [checkCircuitBreaker, h2]
  · simp [checkCircuitBreaker]

/-- Witness for C3 (amended) at concrete times: failures at 10..50,
recovery timeout 60000, checks at 60050 (still closed-off), 60051
(half-open trial) and 99 (close). -/
theorem circuitBreaker_recovery_cycle_witness :
    ({ failures := some 5, state := some "open", lastFailure := some 50 } :
        CircuitState).state = some "open" ∧
    checkCircuitBreaker ⟨some 5, some "open", some 50⟩ 60050 5 60000
      = (⟨some 5, some "open", some 50⟩, false) ∧
    checkCircuitBreaker ⟨some 5, some "open", some 50⟩ 60051 5 60000
      = (⟨some 5, some "half-open", some 50⟩, true) ∧
    checkCircuitBreaker ⟨some 5, some "half-open", some 50⟩ 99 5 60000
      = (⟨none, some "closed", some 50⟩, true) :=
  circuitBreaker_recovery_cycle 10 20 30 40 50 60000 60050 60051 99
    ⟨some 5, some "open", some 50⟩ rfl (by decide) (by decide)

/-- Claim C9 counterexample: the claim asserts that two runs of
`checkCircuitBreaker` from stores differing only in the stored failures
count produce identical resulting store states; but a closed-state check
leaves each store's (differing) failures counter in place, so the
resulting states differ. -/
theorem checkCircuitBreaker_failures_state_counterexample :
    checkCircuitBreaker ⟨some 0, none, none⟩ 0 5 60000
      ≠ checkCircuitBreaker ⟨some 1, none, none⟩ 0 5 60000 := by
  decide

/-- Claim C9 as amended: `checkCircuitBreaker` is fully independent of its
`failureThreshold` argument (identical return and resulting store), and
two runs from stores differing only in the failures count return the same
boolean and write the same state and last-failure fields; each run's
failures counter is either carried over untouched from its own initial
store or cleared in both runs (half-open path).  In particular neither
the decision nor any write depends on `failureThreshold` or on the
failures counter. -/
theorem checkCircuitBreaker_threshold_independent :
    (∀ st now rt th1 th2,
      checkCircuitBreaker st now th1 rt = checkCircuitBreaker st now th2 rt) ∧
    (∀ (st : CircuitState) (f1 f2 : Option Nat) (now th rt : Nat),
      (checkCircuitBreaker { st with failures := f1 } now th rt).2
        = (checkCircuitBreaker { st with failures := f2 } now th rt).2 ∧
      (checkCircuitBreaker { st with failures := f1 } now th rt).1.state
        = (checkCircuitBreaker { st with failures := f2 } now th rt).1.state ∧
      (checkCircuitBreaker { st with failures := f1 } now th rt).1.lastFailure
        = (checkCircuitBreaker { st with failures := f2 } now th rt).1.lastFailure ∧
      (((checkCircuitBreaker { st with failures := f1 } now th rt).1.failures = f1 ∧
        (checkCircuitBreaker { st with failures := f2 } now th rt).1.failures = f2) ∨
       ((checkCircuitBreaker { st with failures := f1 } now th rt).1.failures = none ∧
        (checkCircuitBreaker { st with failures := f2 } now th rt).1.failures = none))) := by
  constructor
  · intro st now rt th1 th2
    rfl
  · intro st f1 f2 now th rt
    simp only [checkCircuitBreaker]
    by_cases h1 : st.state = some "open"
    · simp only [h1, if_pos rfl]
      cases st.lastFailure with
      | none => simp
      | some t =>
        by_cases h2 : rt < now - t
        · simp [h2]
        · simp [h2]
    · by_cases h3 : st.state = some "half-open"
      · simp [h1, h3]
      · simp [h1, h3]

/-- Claim C7: on a store error every best-effort method degrades without
raising — `checkRateLimit` fails open with `{allowed: true, remaining:
limit, resetTime: 0}`, `checkCircuitBreaker` permits the call, the cache
methods act as a miss/no-op — while `enqueueJob` alone re-raises the
store error to its caller. -/
theorem store_error_degradation :
    (∀ s now limit w, checkRateLimitE false s now limit w
        = (s, { allowed := true, remaining := limit, resetTime := 0 })) ∧
    (∀ st now th rt, checkCircuitBreakerE false st now th rt = (st, true)) ∧
    (∀ c key now, getCachedDataE false c key now = none) ∧
    (∀ c key v ttl now, setCachedDataE false c key v ttl now = c) ∧
    (∀ c key, invalidateCacheE false c key = c) ∧
    (∀ qs id data priority now,
      enqueueJobE false qs id data priority now = Except.error "store unavailable") :=
  ⟨fun _ _ _ _ => rfl, fun _ _ _ _ => rfl, fun _ _ _ => rfl, fun _ _ _ _ _ => rfl,
   fun _ _ => rfl, fun _ _ _ _ _ => rfl⟩

/-- Claim C6 counterexample: `completeJob` on a job that is still queued
updates only the hash record (status becomes `completed`), but does not
remove the queue-index entry, so the job still appears in a subsequent
`dequeueJob` — contradicting "after completeJob ... that job never again
appears in any subsequent dequeueJob call". -/
theorem completeJob_requeue_counterexample :
    (assocGet (runQ ⟨[], []⟩ [QOp.enq "a" "d" 0 0, QOp.complete "a" none 1]).1.jobs "a").map
        Job.status = some "completed" ∧
    (runQ ⟨[], []⟩ [QOp.enq "a" "d" 0 0, QOp.complete "a" none 1, QOp.deq 2]).2
      = [mkJob "a" "d" 0 0] := by
  constructor <;> rfl

/-- Claim C6 as amended: every job record enqueued at most once is
returned by `dequeueJob` at most once; `completeJob` (resp. `failJob`) on
an existing hash record merges in status `completed` (resp. `failed`)
with the timestamp and result/error; and a job absent from the queue
index (e.g. already dequeued) and never re-enqueued never appears in any
subsequent dequeue.  However, a job completed or failed while still
queued does still appear in a later dequeue, because those methods only
rewrite the hash record and leave the queue index untouched. -/
theorem jobQueue_lifecycle :
    (∀ j ops, enqCount j ops ≤ 1 → outCount j (runQ ⟨[], []⟩ ops).2 ≤ 1) ∧
    (∀ qs jobId job res now, assocGet qs.jobs jobId = some job →
      assocGet (completeJob qs jobId res now).jobs jobId
        = some { job with status := "completed", completedAt := some now, result := res }) ∧
    (∀ qs jobId job err now, assocGet qs.jobs jobId = some job →
      assocGet (failJob qs jobId err now).jobs jobId
        = some { job with status := "failed", failedAt := some now, error := some err }) ∧
    (∀ j qs ops, memCount j qs.queue = 0 → enqCount j ops = 0 →
      outCount j (runQ qs ops).2 = 0) := by
  refine ⟨?_, ?_, ?_, ?_⟩
  · intro j ops h
    have := runQ_outCount_le j ops ⟨[], []⟩
    simp only [memCount, List.countP_nil] at this
    omega
  · intro qs jobId job res now h
    simp only [completeJob, h]
    exact assocGet_assocSet qs.jobs jobId _
  · intro qs jobId job err now h
    simp only [failJob, h]
    exact assocGet_assocSet qs.jobs jobId _
  · intro j qs ops hmem henq
    have := runQ_outCount_le j ops qs
    omega

/-- Witness for C6 (amended) on a concrete trace: a job enqueued once and
dequeued twice-attempted is returned at most once. -/
theorem jobQueue_lifecycle_witness :
    outCount (mkJob "a" "d" 0 0)
      (runQ ⟨[], []⟩ [QOp.enq "a" "d" 0 0, QOp.deq 1, QOp.deq 2]).2 ≤ 1 :=
  jobQueue_lifecycle.1 (mkJob "a" "d" 0 0)
    [QOp.enq "a" "d" 0 0, QOp.deq 1, QOp.deq 2] (by decide)

/-- Claim C10: on a queue whose index entries are enqueue-time records
(status `queued`, no `startedAt`), the job returned by `dequeueJob` is
exactly such a record — status `queued`, no `startedAt` — even though the
same call overwrites the hash record with status `processing` and a
`startedAt` timestamp; the caller never sees `processing` in the returned
value. -/
theorem dequeueJob_returns_queued_record (qs : QueueState) (now : Nat)
    (hinv : ∀ e ∈ qs.queue, (e : Int × Job).2.status = "queued" ∧ e.2.startedAt = none)
    (qs' : QueueState) (j : Job) (h : dequeueJob qs now = (qs', some j)) :
    j.status = "queued" ∧ j.startedAt = none ∧
    assocGet qs'.jobs j.id = some { j with status := "processing", startedAt := some now } := by
  unfold dequeueJob at h
  cases hp : popMinQ qs.queue with
  | none => rw [hp] at h; simp at h
  | some p =>
    obtain ⟨⟨sc, job⟩, rest⟩ := p
    rw [hp] at h
    dsimp only at h
    simp only [Prod.mk.injEq, Option.some.injEq] at h
    obtain ⟨hq, hj⟩ := h
    have hshape := hinv (sc, job) (popMinQ_mem qs.queue (sc, job) rest hp)
    subst hj
    refine ⟨hshape.1, hshape.2, ?_⟩
    rw [← hq]
    exact assocGet_assocSet qs.jobs job.id _

/-- Witness for C10 on a one-element queue: the record comes back in
enqueue-time shape while the hash holds the processing copy. -/
theorem dequeueJob_returns_queued_record_witness :
    (mkJob "a" "p" 0 5).status = "queued" ∧ (mkJob "a" "p" 0 5).startedAt = none ∧
    assocGet (QueueState.mk []
        [("a", { mkJob "a" "p" 0 5 with status := "processing", startedAt := some 7 })]).jobs
        (mkJob "a" "p" 0 5).id
      = some { mkJob "a" "p" 0 5 with status := "processing", startedAt := some 7 } :=
  dequeueJob_returns_queued_record ⟨[(0, mkJob "a" "p" 0 5)], [("a", mkJob "a" "p" 0 5)]⟩ 7
    (by decide) _ _ rfl

theorem bucket_lower (w b x : Nat) (hx : x / 1000 / w = b) : b * (1000 * w) ≤ x := by
  rw [Nat.div_div_eq_div_mul] at hx
  calc b * (1000 * w) ≤ x / (1000 * w) * (1000 * w) :=
        Nat.mul_le_mul_right (1000 * w) (le_of_eq hx.symm)
    _ ≤ x := Nat.div_mul_le_self x (1000 * w)

theorem bucket_not_pruned (w b x : Nat) (hw : 0 < w) (hx : b * (1000 * w) ≤ x) :
    ¬((x : Int) ≤ ((b * w : Nat) : Int) - (w : Int)) := by
  have h2 : b * w ≤ b * (1000 * w) := Nat.mul_le_mul_left b (by omega)
  rcases Nat.eq_zero_or_pos b with hb0 | hbpos
  · subst hb0
    simp only [Nat.zero_mul] at *
    omega
  · have h1 : w ≤ b * w := Nat.le_mul_of_pos_left w hbpos
    generalize hB : b * (1000 * w) = bmw at h2 hx
    generalize hA : b * w = bw at h1 h2 ⊢
    omega

theorem bucket_counted (w b x : Nat) (hx : b * (1000 * w) ≤ x) : b * w ≤ x :=
  le_trans (Nat.mul_le_mul_left b (by omega)) hx

theorem checkRateLimit_step (s : Finset Nat) (t limit w b : Nat) (hw : 0 < w)
    (ht : t / 1000 / w = b) (hs : ∀ x ∈ s, x / 1000 / w = b) (hts : t ∉ s) :
    checkRateLimit s t limit w =
      (insert t s,
       { allowed := decide (s.card + 1 ≤ limit)
       , remaining := limit - (s.card + 1)
       , resetTime := (b * w + w) * 1000 }) := by
  dsimp only [checkRateLimit]
  rw [ht]
  have hkeep : s.filter (fun x : Nat => ¬((x : Int) ≤ ((b * w : Nat) : Int) - (w : Int))) = s :=
    Finset.filter_true_of_mem (fun x hx =>
      bucket_not_pruned w b x hw (bucket_lower w b x (hs x hx)))
  rw [hkeep]
  have hcnt : (insert t s).filter (fun x : Nat => b * w ≤ x) = insert t s := by
    apply Finset.filter_true_of_mem
    intro x hx
    rcases Finset.mem_insert.mp hx with rfl | hx
    · exact bucket_counted w b x (bucket_lower w b x ht)
    · exact bucket_counted w b x (bucket_lower w b x (hs x hx))
  rw [hcnt, Finset.card_insert_of_not_mem hts]

theorem runRateLimit_bucket (limit w b : Nat) (hw : 0 < w) (ts : List Nat) :
    ∀ s : Finset Nat,
      (∀ x ∈ s, x / 1000 / w = b) →
      (∀ x ∈ s, ∀ t ∈ ts, x < t) →
      List.Pairwise (· < ·) ts →
      (∀ t ∈ ts, t / 1000 / w = b) →
      (runRateLimit s limit w ts).2
        = (List.range ts.length).map (fun i =>
            { allowed := decide (s.card + i + 1 ≤ limit)
            , remaining := limit - (s.card + i + 1)
            , resetTime := (b * w + w) * 1000 }) := by
  induction ts with
  | nil =>
    intro s _ _ _ _
    simp [runRateLimit]
  | cons t ts ih =>
    intro s hs hlt hpw hts
    have hb : t / 1000 / w = b := hts t (List.mem_cons_self t ts)
    have htns : t ∉ s := fun hmem => lt_irrefl t (hlt t hmem t (List.mem_cons_self t ts))
    have hstep := checkRateLimit_step s t limit w b hw hb hs htns
    rw [List.pairwise_cons] at hpw
    obtain ⟨htts, hpw2⟩ := hpw
    have hs2 : ∀ x ∈ insert t s, x / 1000 / w = b := by
      intro x hx
      rcases Finset.mem_insert.mp hx with rfl | hx
      · exact hb
      · exact hs x hx
    have hlt2 : ∀ x ∈ insert t s, ∀ u ∈ ts, x < u := by
      intro x hx u hu
      rcases Finset.mem_insert.mp hx with rfl | hx
      · exact htts u hu
      · exact hlt x hx u (List.mem_cons_of_mem t hu)
    have hts2 : ∀ u ∈ ts, u / 1000 / w = b := fun u hu => hts u (List.mem_cons_of_mem t hu)
    have hrec := ih (insert t s) hs2 hlt2 hpw2 hts2
    rw [Finset.card_insert_of_not_mem htns] at hrec
    simp only [runRateLimit, hstep, hrec, List.length_cons, List.range_succ_eq_map,
               List.map_cons, List.map_map]
    congr 1
    apply List.map_congr_left
    intro i _
    simp only [Function.comp, RLResult.mk.injEq, decide_eq_decide, Nat.succ_eq_add_one]
    repeat' apply And.intro
    all_goals first | omega | trivial

/-- Claim C4: with a fresh key, exactly `limit + 1` calls at strictly
increasing millisecond timestamps inside one `windowSeconds`-aligned
bucket `b` yield `allowed = true` with `remaining = limit-1, ..., 0` for
the first `limit` calls (call `i+1` sees count `i+1`), and the
`(limit+1)`-th call yields `allowed = false` with `remaining = 0`, all
with `resetTime = (b*windowSeconds + windowSeconds) * 1000`. -/
theorem checkRateLimit_limit_window (limit w b : Nat) (ts : List Nat) (hw : 0 < w)
    (hlen : ts.length = limit + 1) (hsorted : List.Pairwise (· < ·) ts)
    (hbucket : ∀ t ∈ ts, t / 1000 / w = b) :
    (runRateLimit ∅ limit w ts).2
      = (List.range (limit + 1)).map (fun i =>
          { allowed := decide (i + 1 ≤ limit)
          , remaining := limit - (i + 1)
          , resetTime := (b * w + w) * 1000 }) := by
  have h := runRateLimit_bucket limit w b hw ts ∅ (by simp) (by simp) hsorted hbucket
  rw [hlen] at h
  simpa using h

/-- Witness for C4: limit 3, window 60 s, four calls inside bucket 16
(timestamps around 1000 s) — allowed, allowed, allowed, denied with
remaining 2, 1, 0, 0. -/
theorem checkRateLimit_limit_window_witness :
    (runRateLimit ∅ 3 60 [1000000, 1000001, 1000002, 1000003]).2
      = (List.range 4).map (fun i =>
          { allowed := decide (i + 1 ≤ 3)
          , remaining := 3 - (i + 1)
          , resetTime := (16 * 60 + 60) * 1000 }) :=
  checkRateLimit_limit_window 3 60 16 [1000000, 1000001, 1000002, 1000003]
    (by decide) (by decide) (by decide) (by decide)

/-- Claim C5 is violated by the code (units bug): scores are stored in
milliseconds but `windowStart` is computed in seconds, so the
`ZREMRANGEBYSCORE 0 (windowStart - windowSeconds)` prune never removes
anything and `ZCOUNT windowStart +inf` counts every entry ever added.
Concretely with limit 1, window 60 s: calls at 1000000 ms and 1000001 ms
(bucket 16, second call denied), then a call at 1090000 ms — a new bucket,
more than 60 s past the old boundary, with the key's 120 s TTL still
unexpired — is still denied, and the set still retains the 1000000 ms
entry, which is older than `now - windowSeconds`. -/
theorem checkRateLimit_stale_entries_bug :
    ((runRateLimit ∅ 1 60 [1000000, 1000001, 1090000]).2.map RLResult.allowed
        = [true, false, false]) ∧
    1000000 ∈ (runRateLimit ∅ 1 60 [1000000, 1000001, 1090000]).1 ∧
    1000000 + 60 * 1000 < 1090000 := by
  refine ⟨?_, ?_, ?_⟩ <;> decide

theorem expects_append (pat rest : List Char) : expects pat (pat ++ rest) = some rest := by
  induction pat with
  | nil => rfl
  | cons p ps ih => simp [expects, ih]

theorem String_mk_data (s : String) : String.mk s.data = s := by
  cases s
  rfl

theorem digitVal_digitChar (d : Nat) (h : d < 10) : digitVal (digitChar d) = some d := by
  interval_cases d <;> rfl

theorem digitVal_isSome_cases (c : Char) (h : (digitVal c).isSome = true) :
    c = '0' ∨ c = '1' ∨ c = '2' ∨ c = '3' ∨ c = '4' ∨ c = '5' ∨ c = '6' ∨ c = '7' ∨
      c = '8' ∨ c = '9' := by
  unfold digitVal at h
  split_ifs at h with h0 h1 h2 h3 h4 h5 h6 h7 h8 h9
  · exact Or.inl h0
  · exact Or.inr (Or.inl h1)
  · exact Or.inr (Or.inr (Or.inl h2))
  · exact Or.inr (Or.inr (Or.inr (Or.inl h3)))
  · exact Or.inr (Or.inr (Or.inr (Or.inr (Or.inl h4))))
  · exact Or.inr (Or.inr (Or.inr (Or.inr (Or.inr (Or.inl h5)))))
  · exact Or.inr (Or.inr (Or.inr (Or.inr (Or.inr (Or.inr (Or.inl h6))))))
  · exact Or.inr (Or.inr (Or.inr (Or.inr (Or.inr (Or.inr (Or.inr (Or.inl h7)))))))
  · exact Or.inr (Or.inr (Or.inr (Or.inr (Or.inr (Or.inr (Or.inr (Or.inr (Or.inl h8))))))))
  · exact Or.inr (Or.inr (Or.inr (Or.inr (Or.inr (Or.inr (Or.inr (Or.inr (Or.inr h9))))))))
  · simp at h

theorem digit_not_delim (c : Char) (h : (digitVal c).isSome = true) :
    c ≠ 'n' ∧ c ≠ 't' ∧ c ≠ 'f' ∧ c ≠ '\"' ∧ c ≠ '[' ∧ c ≠ '\x7b' ∧ c ≠ '-' ∧
      c ≠ ']' ∧ c ≠ '\x7d' := by
  rcases digitVal_isSome_cases c h with h | h | h | h | h | h | h | h | h | h <;>
    subst h <;> decide

theorem natChars_digits (n : Nat) : ∀ c ∈ natChars n, (digitVal c).isSome = true := by
  induction n using Nat.strong_induction_on with
  | _ n ih =>
    rw [natChars]
    by_cases h : n < 10
    · rw [dif_pos h]
      intro c hc
      rw [List.mem_singleton] at hc
      subst hc
      rw [digitVal_digitChar n h]
      rfl
    · rw [dif_neg h]
      intro c hc
      rcases List.mem_append.mp hc with hc | hc
      · exact ih (n / 10) (Nat.div_lt_self (by omega) (by omega)) c hc
      · rw [List.mem_singleton] at hc
        subst hc
        rw [digitVal_digitChar (n % 10) (Nat.mod_lt n (by omega))]
        rfl

theorem natChars_ne_nil (n : Nat) : natChars n ≠ [] := by
  rw [natChars]
  by_cases h : n < 10
  · rw [dif_pos h]
    simp
  · rw [dif_neg h]
    simp

theorem digitsToNat_append_one (ds : List Nat) (d : Nat) :
    digitsToNat (ds ++ [d]) = digitsToNat ds * 10 + d := by
  simp [digitsToNat, List.foldl_append]

theorem digitsToNat_natChars (n : Nat) :
    digitsToNat ((natChars n).map (fun c => (digitVal c).getD 0)) = n := by
  induction n using Nat.strong_induction_on with
  | _ n ih =>
    rw [natChars]
    by_cases h : n < 10
    · rw [dif_pos h]
      simp [digitVal_digitChar n h, digitsToNat]
    · rw [dif_neg h]
      simp only [List.map_append, List.map_cons, List.map_nil, digitsToNat_append_one]
      rw [ih (n / 10) (Nat.div_lt_self (by omega) (by omega)),
          digitVal_digitChar (n % 10) (Nat.mod_lt n (by omega))]
      simp only [Option.getD_some]
      omega

theorem takeDigits_append (l rest : List Char) (hl : ∀ c ∈ l, (digitVal c).isSome = true)
    (hr : noDigitStart rest = true) :
    takeDigits (l ++ rest) = (l.map (fun c => (digitVal c).getD 0), rest) := by
  induction l with
  | nil =>
    cases rest with
    | nil => rfl
    | cons c cs =>
      simp only [List.nil_append, List.map_nil]
      simp only [noDigitStart] at hr
      have hc : digitVal c = none := Option.isNone_iff_eq_none.mp hr
      unfold takeDigits
      rw [hc]
  | cons c cs ih =>
    have hc := hl c (List.mem_cons_self c cs)
    obtain ⟨d, hd⟩ := Option.isSome_iff_exists.mp hc
    simp only [List.cons_append]
    unfold takeDigits
    rw [hd, ih (fun x hx => hl x (List.mem_cons_of_mem c hx))]
    simp [hd]

theorem parseStrAux_escape (l rest : List Char) :
    parseStrAux (escapeChars l ++ '\"' :: rest) = some (l, rest) := by
  induction l with
  | nil =>
    show parseStrAux ('\"' :: rest) = some ([], rest)
    unfold parseStrAux
    rw [if_neg (by decide), if_pos rfl]
  | cons c cs ih =>
    by_cases h : c = '\"' ∨ c = '\\'
    · show parseStrAux (escapeChars (c :: cs) ++ '\"' :: rest) = some (c :: cs, rest)
      unfold escapeChars
      rw [if_pos h]
      show parseStrAux ('\\' :: c :: (escapeChars cs ++ '\"' :: rest)) = some (c :: cs, rest)
      unfold parseStrAux
      rw [if_pos rfl]
      simp [ih]
    · have h1 : ¬ c = '\\' := fun hc => h (Or.inr hc)
      have h2 : ¬ c = '\"' := fun hc => h (Or.inl hc)
      show parseStrAux (escapeChars (c :: cs) ++ '\"' :: rest) = some (c :: cs, rest)
      unfold escapeChars
      rw [if_neg h]
      show parseStrAux (c :: (escapeChars cs ++ '\"' :: rest)) = some (c :: cs, rest)
      unfold parseStrAux
      rw [if_neg h1, if_neg h2]
      simp [ih]

theorem stringifyElems_cons (e : Json) (es : List Json) :
    ∃ t, stringifyElems (e :: es) = stringifyJ e ++ t := by
  cases es with
  | nil => exact ⟨[], by simp [stringifyElems]⟩
  | cons e2 es2 => exact ⟨',' :: stringifyElems (e2 :: es2), rfl⟩

theorem stringifyFields_head (f : String × Json) (fs : List (String × Json)) :
    ∃ t, stringifyFields (f :: fs) = '\"' :: t := by
  cases fs with
  | nil => exact ⟨escapeChars f.1.data ++ '\"' :: ':' :: stringifyJ f.2, rfl⟩
  | cons f2 fs2 =>
    exact ⟨(escapeChars f.1.data ++ '\"' :: ':' :: stringifyJ f.2) ++
      ',' :: stringifyFields (f2 :: fs2), rfl⟩

theorem stringify_head (v : Json) :
    ∃ c cs, stringifyJ v = c :: cs ∧ c ≠ ']' ∧ c ≠ '\x7d' := by
  cases v with
  | null => exact ⟨'n', _, rfl, by decide, by decide⟩
  | bool b =>
    cases b with
    | true => exact ⟨'t', _, rfl, by decide, by decide⟩
    | false => exact ⟨'f', _, rfl, by decide, by decide⟩
  | num n =>
    simp only [stringifyJ]
    unfold intChars
    by_cases h : n < 0
    · rw [if_pos h]
      exact ⟨'-', _, rfl, by decide, by decide⟩
    · rw [if_neg h]
      obtain ⟨c, cs, hc⟩ := List.exists_cons_of_ne_nil (natChars_ne_nil n.toNat)
      have hd := natChars_digits n.toNat c (by rw [hc]; exact List.mem_cons_self c cs)
      have hnd := digit_not_delim c hd
      exact ⟨c, cs, hc, hnd.2.2.2.2.2.2.2.1, hnd.2.2.2.2.2.2.2.2⟩
  | str s => exact ⟨'\"', _, rfl, by decide, by decide⟩
  | arr es => exact ⟨'[', _, rfl, by decide, by decide⟩
  | obj fs => exact ⟨'\x7b', _, rfl, by decide, by decide⟩

theorem stringifyJ_length_pos (v : Json) : 1 ≤ (stringifyJ v).length := by
  obtain ⟨c, cs, hc, _, _⟩ := stringify_head v
  rw [hc]
  simp

theorem jsize_pos (v : Json) : 1 ≤ jsize v := by
  cases v <;> simp [jsize]

theorem sizes_le (n : Nat) :
    (∀ v : Json, jsize v ≤ n → jsize v ≤ (stringifyJ v).length) ∧
    (∀ es : List Json, lsize es ≤ n → lsize es ≤ (stringifyElems es).length + 1) ∧
    (∀ fs : List (String × Json), fsize fs ≤ n → fsize fs ≤ (stringifyFields fs).length + 1) := by
  induction n with
  | zero =>
    refine ⟨?_, ?_, ?_⟩
    · intro v hv
      have := jsize_pos v
      omega
    · intro es hes
      cases es with
      | nil => simp [lsize]
      | cons e es2 =>
        simp only [lsize] at hes ⊢
        have := jsize_pos e
        omega
    · intro fs hfs
      cases fs with
      | nil => simp [fsize]
      | cons f fs2 =>
        simp only [fsize] at hfs ⊢
        have := jsize_pos f.2
        omega
  | succ n ih =>
    obtain ⟨ihv, ihe, ihf⟩ := ih
    refine ⟨?_, ?_, ?_⟩
    · intro v hv
      cases v with
      | null => simp [jsize, stringifyJ]
      | bool b => cases b <;> simp [jsize, stringifyJ]
      | num m =>
        have := stringifyJ_length_pos (Json.num m)
        simp only [jsize]
        omega
      | str s =>
        have := stringifyJ_length_pos (Json.str s)
        simp only [jsize]
        omega
      | arr es =>
        cases es with
        | nil => simp [jsize, lsize, stringifyJ, stringifyElems]
        | cons e es2 =>
          have h1 : lsize (e :: es2) ≤ n := by
            simp only [jsize] at hv
            omega
          have h2 := ihe (e :: es2) h1
          simp only [jsize, stringifyJ, List.length_cons, List.length_append,
                     List.length_singleton] at *
          omega
      | obj fs =>
        cases fs with
        | nil => simp [jsize, fsize, stringifyJ, stringifyFields]
        | cons f fs2 =>
          have h1 : fsize (f :: fs2) ≤ n := by
            simp only [jsize] at hv
            omega
          have h2 := ihf (f :: fs2) h1
          simp only [jsize, stringifyJ, List.length_cons, List.length_append,
                     List.length_singleton] at *
          omega
    · intro es hes
      cases es with
      | nil => simp [lsize]
      | cons e es2 =>
        cases es2 with
        | nil =>
          have h1 : jsize e ≤ n := by
            simp only [lsize] at hes
            omega
          have h2 := ihv e h1
          simp only [lsize, stringifyElems] at *
          omega
        | cons e2 es3 =>
          have h1 : jsize e ≤ n := by
            simp only [lsize] at hes
            have := jsize_pos e2
            omega
          have h2 : lsize (e2 :: es3) ≤ n := by
            simp only [lsize] at hes ⊢
            have := jsize_pos e
            omega
          have h3 := ihv e h1
          have h4 := ihe (e2 :: es3) h2
          simp only [lsize, stringifyElems, List.length_append, List.length_cons] at *
          omega
    · intro fs hfs
      cases fs with
      | nil => simp [fsize]
      | cons f fs2 =>
        cases fs2 with
        | nil =>
          have h1 : jsize f.2 ≤ n := by
            simp only [fsize] at hfs
            omega
          have h2 := ihv f.2 h1
          simp only [fsize, stringifyFields, List.length_append, List.length_cons] at *
          omega
        | cons f2 fs3 =>
          have h1 : jsize f.2 ≤ n := by
            simp only [fsize] at hfs
            have := jsize_pos f2.2
            omega
          have h2 : fsize (f2 :: fs3) ≤ n := by
            simp only [fsize] at hfs ⊢
            have := jsize_pos f.2
            omega
          have h3 := ihv f.2 h1
          have h4 := ihf (f2 :: fs3) h2
          simp only [fsize, stringifyFields, List.length_append, List.length_cons] at *
          omega

theorem jsize_le_length (v : Json) : jsize v ≤ (stringifyJ v).length :=
  (sizes_le (jsize v)).1 v le_rfl

theorem parse_roundtrip (fuel : Nat) :
    (∀ v rest, jsize v ≤ fuel → noDigitStart rest = true →
      parseVal fuel (stringifyJ v ++ rest) = some (v, rest)) ∧
    (∀ es rest, es ≠ [] → lsize es ≤ fuel →
      parseElems fuel (stringifyElems es ++ ']' :: rest) = some (es, rest)) ∧
    (∀ fs rest, fs ≠ [] → fsize fs ≤ fuel →
      parseFields fuel (stringifyFields fs ++ '\x7d' :: rest) = some (fs, rest)) := by
  induction fuel with
  | zero =>
    refine ⟨?_, ?_, ?_⟩
    · intro v rest hv _
      have := jsize_pos v
      omega
    · intro es rest hne hes
      cases es with
      | nil => exact absurd rfl hne
      | cons e es2 =>
        simp only [lsize] at hes
        have := jsize_pos e
        omega
    · intro fs rest hne hfs
      cases fs with
      | nil => exact absurd rfl hne
      | cons f fs2 =>
        simp only [fsize] at hfs
        have := jsize_pos f.2
        omega
  | succ fuel ih =>
    obtain ⟨ihv, ihe, ihf⟩ := ih
    refine ⟨?_, ?_, ?_⟩
    · intro v rest hv hrest
      cases v with
      | null =>
        simp [parseVal, stringifyJ, expects]
      | bool b =>
        cases b <;> simp [parseVal, stringifyJ, expects]
      | num m =>
        simp only [stringifyJ]
        unfold intChars
        by_cases h : m < 0
        · rw [if_pos h]
          simp only [List.cons_append]
          simp only [parseVal]
          rw [if_pos trivial]
          rw [takeDigits_append (natChars m.natAbs) rest (natChars_digits _) hrest]
          obtain ⟨c, cs, hc⟩ := List.exists_cons_of_ne_nil (natChars_ne_nil m.natAbs)
          rw [hc]
          simp only [List.map_cons]
          have hdn := digitsToNat_natChars m.natAbs
          rw [hc] at hdn
          simp only [List.map_cons] at hdn
          rw [hdn]
          have hm : -((m.natAbs : Int)) = m := by omega
          rw [hm]
          simp
        · rw [if_neg h]
          obtain ⟨c, cs, hc⟩ := List.exists_cons_of_ne_nil (natChars_ne_nil m.toNat)
          have hd := natChars_digits m.toNat c (by rw [hc]; exact List.mem_cons_self c cs)
          have hnd := digit_not_delim c hd
          rw [hc]
          simp only [List.cons_append]
          simp only [parseVal]
          rw [if_neg hnd.1, if_neg hnd.2.1, if_neg hnd.2.2.1, if_neg hnd.2.2.2.1,
              if_neg hnd.2.2.2.2.1, if_neg hnd.2.2.2.2.2.1, if_neg hnd.2.2.2.2.2.2.1]
          rw [show c :: (cs ++ rest) = (c :: cs) ++ rest from rfl, ← hc]
          rw [takeDigits_append (natChars m.toNat) rest (natChars_digits _) hrest]
          rw [hc]
          simp only [List.map_cons]
          have hdn := digitsToNat_natChars m.toNat
          rw [hc] at hdn
          simp only [List.map_cons] at hdn
          rw [hdn]
          have hm : ((m.toNat : Nat) : Int) = m := Int.toNat_of_nonneg (by omega)
          rw [hm]
      | str s =>
        simp only [stringifyJ, List.cons_append, List.append_assoc, List.singleton_append,
                   List.nil_append]
        simp only [parseVal]
        rw [if_pos trivial]
        rw [parseStrAux_escape]
        simp [String_mk_data]
      | arr es =>
        cases es with
        | nil =>
          simp only [stringifyJ, stringifyElems, List.nil_append, List.cons_append,
                     List.singleton_append]
          simp only [parseVal]
          rw [if_pos trivial, if_pos trivial]
          simp
        | cons e es2 =>
          obtain ⟨t, ht⟩ := stringifyElems_cons e es2
          obtain ⟨c, cs, hc, hc1, hc2⟩ := stringify_head e
          simp only [stringifyJ, List.cons_append, List.append_assoc, List.singleton_append,
                     List.nil_append]
          simp only [parseVal]
          rw [if_pos trivial]
          rw [ht, hc]
          simp only [List.cons_append, List.append_assoc]
          rw [if_neg hc1]
          rw [show c :: (cs ++ (t ++ ']' :: rest)) = ((c :: cs) ++ t) ++ ']' :: rest from by simp]
          rw [← hc, ← ht]
          rw [ihe (e :: es2) rest (by simp) (by simp only [jsize] at hv; omega)]
          rfl
      | obj fs =>
        cases fs with
        | nil =>
          simp only [stringifyJ, stringifyFields, List.nil_append, List.cons_append,
                     List.singleton_append]
          simp only [parseVal]
          rw [if_pos trivial, if_pos trivial]
          simp
        | cons f fs2 =>
          obtain ⟨t, ht⟩ := stringifyFields_head f fs2
          simp only [stringifyJ, List.cons_append, List.append_assoc, List.singleton_append,
                     List.nil_append]
          simp only [parseVal]
          rw [if_pos trivial]
          rw [ht]
          simp only [List.cons_append]
          rw [if_neg (by decide)]
          rw [show '\"' :: (t ++ '\x7d' :: rest) = ('\"' :: t) ++ '\x7d' :: rest from rfl, ← ht]
          rw [ihf (f :: fs2) rest (by simp) (by simp only [jsize] at hv; omega)]
          rfl
    · intro es rest hne hes
      cases es with
      | nil => exact absurd rfl hne
      | cons e es2 =>
        cases es2 with
        | nil =>
          simp only [stringifyElems]
          simp only [parseElems]
          rw [ihv e (']' :: rest) (by simp only [lsize] at hes; omega) (by rfl)]
          dsimp only
          rw [if_neg (by decide), if_pos rfl]
        | cons e2 es3 =>
          simp only [stringifyElems, List.cons_append, List.append_assoc]
          simp only [parseElems]
          rw [ihv e (',' :: (stringifyElems (e2 :: es3) ++ ']' :: rest))
              (by simp only [lsize] at hes; omega) (by rfl)]
          dsimp only
          rw [if_pos rfl]
          rw [ihe (e2 :: es3) rest (by simp)
              (by simp only [lsize] at hes ⊢; have := jsize_pos e; omega)]
          rfl
    · intro fs rest hne hfs
      cases fs with
      | nil => exact absurd rfl hne
      | cons f fs2 =>
        cases fs2 with
        | nil =>
          simp only [stringifyFields, List.cons_append, List.append_assoc]
          simp only [parseFields]
          rw [if_pos trivial]
          rw [parseStrAux_escape]
          dsimp only
          rw [if_pos rfl]
          rw [ihv f.2 ('\x7d' :: rest) (by simp only [fsize] at hfs; omega) (by rfl)]
          dsimp only
          rw [if_neg (by decide), if_pos rfl]
        | cons f2 fs3 =>
          simp only [stringifyFields, List.cons_append, List.append_assoc]
          simp only [parseFields]
          rw [if_pos trivial]
          rw [parseStrAux_escape]
          dsimp only
          rw [if_pos rfl]
          rw [ihv f.2 (',' :: (stringifyFields (f2 :: fs3) ++ '\x7d' :: rest))
              (by simp only [fsize] at hfs; omega) (by rfl)]
          dsimp only
          rw [if_pos rfl]
          rw [ihf (f2 :: fs3) rest (by simp)
              (by simp only [fsize] at hfs ⊢; have := jsize_pos f.2; omega)]
          simp [String_mk_data]

theorem parseJson_stringifyJson (v : Json) : parseJson (stringifyJson v) = some v := by
  unfold parseJson stringifyJson
  have hdata : (String.mk (stringifyJ v)).data = stringifyJ v := rfl
  rw [hdata]
  have hfuel : jsize v ≤ (stringifyJ v).length + 1 := by
    have := jsize_le_length v
    omega
  have hr := (parse_roundtrip ((stringifyJ v).length + 1)).1 v [] hfuel rfl
  rw [List.append_nil] at hr
  rw [hr]

theorem stringifyJson_ne_empty (v : Json) : stringifyJson v ≠ "" := by
  obtain ⟨c, cs, hc, _, _⟩ := stringify_head v
  unfold stringifyJson
  rw [hc]
  intro hcontra
  have := congrArg String.data hcontra
  simp at this

/-- Claim C8: `setCachedData(k, v)` followed immediately by
`getCachedData(k)` returns a value structurally equal to `v` — the stored
payload is `JSON.stringify(v)` and the read parses it back, and the
embedded stringify/parse pair round-trips exactly; `getCachedData` on a
key never set, or whose TTL has expired, returns `null` — the function is
total and never raises. -/
theorem cache_roundtrip :
    (∀ (c : CacheState) (key : String) (v : Json) (ttl now : Nat), 0 < ttl →
      getCachedData (setCachedData c key v ttl now) key now = some v) ∧
    (∀ (c : CacheState) (key : String) (now : Nat), assocGet c key = none →
      getCachedData c key now = none) ∧
    (∀ (c : CacheState) (key : String) (now : Nat) (e : CacheEntry),
      assocGet c key = some e → e.expiresAt ≤ now → getCachedData c key now = none) := by
  refine ⟨?_, ?_, ?_⟩
  · intro c key v ttl now httl
    unfold getCachedData setCachedData
    rw [assocGet_assocSet]
    dsimp only
    have hexp : ¬ (now + ttl * 1000 ≤ now) := by omega
    rw [if_neg hexp, if_neg (stringifyJson_ne_empty v)]
    exact parseJson_stringifyJson v
  · intro c key now h
    unfold getCachedData
    rw [h]
  · intro c key now e h hexp
    unfold getCachedData
    rw [h]
    dsimp only
    rw [if_pos hexp]

/-- Witness for C8 at a concrete key and value: a set-then-get round
trip, and a get on an empty cache. -/
theorem cache_roundtrip_witness :
    getCachedData (setCachedData [] "meeting:1" (Json.num 42) 3600 0) "meeting:1" 0
      = some (Json.num 42) :=
  cache_roundtrip.1 [] "meeting:1" (Json.num 42) 3600 0 (by decide)
